import Mathlib

/-!
Shallow embedding of the `seq` Go library (lazy sequence combinators) over
finite sequences, modelled as `List`.  A full, uninterrupted iteration of an
`iter.Seq[T]` produced from finite data yields a finite list of elements, so
every combinator below is translated to a function on lists, following the
source of `seq.go` statement by statement.  Stateful closures (the counter
captured by `DropKV`) are modelled by threading the captured state explicitly.
-/

namespace Seq

/-- `CompareFunc` (seq.go lines 501-535).  The Go implementation drives
sequence `b` on a goroutine feeding a rendezvous channel and pulls `a`
directly; for each element of `a` it receives one element of `b`.  A closed
channel before `a` ends means `b` is shorter, giving `1`; a non-zero
comparator value is returned at once; after `a` ends, one more receive
distinguishes `b` longer (`-1`) from equal (`0`).  On finite fully-driven
sequences this is exactly the following recursion. -/
def CompareFunc {α : Type} : List α → List α → (α → α → Int) → Int
  | [], [], _ => 0
  | [], _ :: _, _ => -1
  | _ :: _, [], _ => 1
  | x :: xs, y :: ys, compare =>
    let c := compare x y
    if c ≠ 0 then c else CompareFunc xs ys compare

/-- Go's `cmp.Compare` on an ordered type: `-1` if `x < y`, `0` if equal,
`+1` if `x > y`.  Modelled at `Int`. -/
def cmpCompare (x y : Int) : Int :=
  if x < y then -1 else if y < x then 1 else 0

/-- `Compare` (seq.go lines 492-495): `CompareFunc` with `cmp.Compare`. -/
def Compare (a b : List Int) : Int :=
  CompareFunc a b cmpCompare

/-- The comparator `Equal` passes to `CompareFunc` (seq.go lines 631-638):
`0` when the elements are equal, `-1` otherwise. -/
def eqCmp (x y : Int) : Int :=
  if x = y then 0 else -1

/-- `Equal` (seq.go lines 631-638): true when `CompareFunc` with `eqCmp`
returns `0`. -/
def Equal (a b : List Int) : Bool :=
  CompareFunc a b eqCmp == 0

/-- Spec-side comparison, written from the spec's words for the refinement
claim about `CompareFunc`: the comparator's value at the first index where it
is non-zero; otherwise `0`, `-1` or `+1` by length. -/
def compareSpec {α : Type} (a b : List α) (compare : α → α → Int) : Int :=
  match (List.zipWith compare a b).find? (· != 0) with
  | some c => c
  | none =>
    if a.length = b.length then 0
    else if a.length < b.length then -1 else 1

/-- Loop of `Find` (seq.go lines 947-956).  `idx` is the index of the head of
the remaining list; `iVar` is the current value of the Go loop variable `i`,
which starts at `0` and is assigned the index on each iteration.  When the
loop ends without a match the Go code returns `i + 1`. -/
def findAux {α : Type} [DecidableEq α] (value : α) :
    List α → Nat → Nat → Nat × Bool
  | [], _, iVar => (iVar + 1, false)
  | x :: xs, idx, _ =>
    if x = value then (idx, true) else findAux value xs (idx + 1) idx

/-- `Find` (seq.go lines 947-956): index of the first occurrence and `true`,
or the final loop counter plus one and `false`. -/
def Find {α : Type} [DecidableEq α] (l : List α) (value : α) : Nat × Bool :=
  findAux value l 0 0

/-- Loop of `IsSortedKV` (seq.go lines 747-757): `prev` begins at the zero
pair and every pair, the first included, is checked per-field against it. -/
def isSortedKVAux : List (Int × Int) → Int × Int → Bool
  | [], _ => true
  | (k, v) :: rest, prev =>
    if k < prev.1 ∨ v < prev.2 then false else isSortedKVAux rest (k, v)

/-- `IsSortedKV` (seq.go lines 747-757), with `K = V = Int` whose zero value
is `0`.  Note the loop has no special case for the first pair. -/
def IsSortedKV (l : List (Int × Int)) : Bool :=
  isSortedKVAux l (0, 0)

/-- Spec-side sortedness for key-value pairs, written from the spec's words:
at every adjacent step both the key and the value are non-decreasing
independently; fewer than two pairs is sorted. -/
def pairwiseSortedKV : List (Int × Int) → Bool
  | [] => true
  | [_] => true
  | a :: b :: rest =>
    if b.1 < a.1 ∨ b.2 < a.2 then false else pairwiseSortedKV (b :: rest)

/-- Loop of `Compact` (seq.go lines 368-390): the element at index 0 is
always yielded; afterwards an element is yielded only when it differs from
`prev`, which is updated on every yield. -/
def compactAux {α : Type} [DecidableEq α] : List α → α → List α
  | [], _ => []
  | t :: rest, prev =>
    if prev ≠ t then t :: compactAux rest t else compactAux rest prev

/-- `Compact` (seq.go lines 368-390).  The `switch` on the index yields the
first element unconditionally. -/
def Compact {α : Type} [DecidableEq α] : List α → List α
  | [] => []
  | t :: rest => t :: compactAux rest t

/-- Loop of `CompactFunc` (seq.go lines 392-415), caller-supplied equality,
first element yielded unconditionally. -/
def compactFuncAux {α : Type} (equal : α → α → Bool) : List α → α → List α
  | [], _ => []
  | t :: rest, prev =>
    if ¬ equal prev t then t :: compactFuncAux equal rest t
    else compactFuncAux equal rest prev

/-- `CompactFunc` (seq.go lines 392-415). -/
def CompactFunc {α : Type} (l : List α) (equal : α → α → Bool) : List α :=
  match l with
  | [] => []
  | t :: rest => t :: compactFuncAux equal rest t

/-- `CompactKV` (seq.go lines 419-432), with `K = V = Int`.  Unlike
`Compact`, the loop has no case for index 0: `prev` starts at the zero pair
and the first pair is compared against it, and `prev` is only updated when a
pair is yielded. -/
def compactKVAux : List (Int × Int) → Int × Int → List (Int × Int)
  | [], _ => []
  | (k, v) :: rest, prev =>
    if prev.1 ≠ k ∨ prev.2 ≠ v then (k, v) :: compactKVAux rest (k, v)
    else compactKVAux rest prev

/-- `CompactKV` (seq.go lines 419-432): entry with `prev` the zero pair. -/
def CompactKV (l : List (Int × Int)) : List (Int × Int) :=
  compactKVAux l (0, 0)

/-- `CompactKVFunc` (seq.go lines 437-450): same shape, caller-supplied
equality on pairs, `prev` starting at the zero pair. -/
def compactKVFuncAux (equal : Int × Int → Int × Int → Bool) :
    List (Int × Int) → Int × Int → List (Int × Int)
  | [], _ => []
  | kv :: rest, prev =>
    if ¬ equal prev kv then kv :: compactKVFuncAux equal rest kv
    else compactKVFuncAux equal rest prev

/-- `CompactKVFunc` (seq.go lines 437-450). -/
def CompactKVFunc (l : List (Int × Int))
    (equal : Int × Int → Int × Int → Bool) : List (Int × Int) :=
  compactKVFuncAux equal l (0, 0)

/-- Spec-side compaction, written from the spec's words: keep exactly the
first element of each maximal run of adjacent equal elements. -/
def compactSpec {α : Type} [DecidableEq α] : List α → List α
  | [] => []
  | [x] => [x]
  | x :: y :: rest =>
    if x = y then compactSpec (y :: rest) else x :: compactSpec (y :: rest)

/-- `Coalesce` (seq.go lines 761-770), with `T = Int` whose zero value is
`0`.  The Go locals `value` and `found` keep their zero values on the
fall-through path, so it returns `(0, false)` when no element differs from
zero. -/
def Coalesce : List Int → Int × Bool
  | [] => (0, false)
  | t :: rest => if t ≠ 0 then (t, true) else Coalesce rest

/-- Loop of `Chunk` (seq.go lines 454-470): `chunk` accumulates elements and
is emitted when its length reaches `size`; a non-empty remainder is emitted
at the end.  `size` is a Go `int`, so it may be non-positive. -/
def chunkAux {α : Type} (size : Int) : List α → List α → List (List α)
  | [], chunk => if chunk.length > 0 then [chunk] else []
  | t :: rest, chunk =>
    let chunk2 := chunk ++ [t]
    if (chunk2.length : Int) = size then chunk2 :: chunkAux size rest []
    else chunkAux size rest chunk2

/-- `Chunk` (seq.go lines 454-470): each inner chunk re-exposed by
`With(chunk...)` replays the accumulated slice, so it is the list itself. -/
def Chunk {α : Type} (l : List α) (size : Int) : List (List α) :=
  chunkAux size l []

/-- One full iteration of the sequence returned by `DropKV` (seq.go lines
861-874), starting from counter value `i` (the Go closure captures `i`,
initialised to `-1`, OUTSIDE the returned function, so it persists across
iterations).  Each element increments the counter, and the element is
yielded unless the counter is below `n`.  Returns the yielded pairs and the
counter's final value. -/
def dropKVStep {α : Type} (n : Int) : List α → Int → List α × Int
  | [], i => ([], i)
  | x :: xs, i =>
    if i + 1 < n then dropKVStep n xs (i + 1)
    else
      let r := dropKVStep n xs (i + 1)
      (x :: r.1, r.2)

/-- One full iteration of the sequence returned by `Drop` (seq.go lines
846-857): the index generator `IntK` is created INSIDE the returned closure,
so every iteration counts afresh from `0`; an element at index `i` is
yielded when `i ≥ n`. -/
def dropRun {α : Type} (n : Int) (l : List α) : List α :=
  (dropKVStep n l (-1)).1

/-! ## Helper lemmas -/

/-- A comparator whose zero set is equality makes `CompareFunc` return `0`
exactly on equal lists. -/
theorem compareFunc_zero_iff {α : Type} (c : α → α → Int)
    (hc : ∀ x y, c x y = 0 ↔ x = y) (a : List α) :
    ∀ b : List α, CompareFunc a b c = 0 ↔ a = b := by
  induction a with
  | nil => intro b; cases b <;> simp [CompareFunc]
  | cons x xs ih =>
    intro b
    cases b with
    | nil => simp [CompareFunc]
    | cons y ys =>
      by_cases h : c x y = 0
      · have hxy : x = y := (hc x y).mp h
        subst hxy
        simp [CompareFunc, h, ih ys]
      · have hne : x ≠ y := fun e => h ((hc x y).mpr e)
        simp [CompareFunc, h, hne]

/-! ## Claims -/

/-- C1: `CompareFunc` returns the comparator's value at the first index where
it is non-zero; when every compared pair yields `0` it returns `0`, `-1` or
`+1` according to whether the lengths are equal, `a` is the strict shorter
prefix, or `b` is. -/
theorem compareFunc_eq_compareSpec {α : Type} (a : List α)
    (compare : α → α → Int) :
    ∀ b : List α, CompareFunc a b compare = compareSpec a b compare := by
  induction a with
  | nil => intro b; cases b <;> simp [CompareFunc, compareSpec]
  | cons x xs ih =>
    intro b
    cases b with
    | nil => simp [CompareFunc, compareSpec]
    | cons y ys =>
      by_cases h : compare x y = 0
      · simp only [CompareFunc, compareSpec, List.zipWith_cons_cons,
          List.find?, h, bne_self_eq_false, ih ys, List.length_cons]
        simp [compareSpec, Nat.add_lt_add_iff_right]
      · have hb : (compare x y != 0) = true := by simpa using h
        simp [CompareFunc, compareSpec, h, hb, List.find?]

/-- C2 (code_bug evaluation): `Find` on the empty sequence returns index `1`
with `false`, not the sequence's length `0`, because the Go loop variable
`i` keeps its initial value `0` and the not-found branch returns `i + 1`. -/
theorem find_empty_returns_one : Find ([] : List Int) 6 = (1, false) := by
  rfl

/-- C3: `Equal a b` holds exactly when `Compare a b` is `0`. -/
theorem equal_iff_compare_zero (a b : List Int) :
    Equal a b = true ↔ Compare a b = 0 := by
  have h1 : ∀ x y : Int, eqCmp x y = 0 ↔ x = y := by
    intro x y
    by_cases h : x = y <;> simp [eqCmp, h]
  have h2 : ∀ x y : Int, cmpCompare x y = 0 ↔ x = y := by
    intro x y
    unfold cmpCompare
    split_ifs with ha hb
    · exact ⟨fun h => absurd h (by norm_num), fun h => by omega⟩
    · exact ⟨fun h => absurd h (by norm_num), fun h => by omega⟩
    · exact ⟨fun _ => by omega, fun _ => rfl⟩
  have e1 := compareFunc_zero_iff eqCmp h1 a b
  have e2 := compareFunc_zero_iff cmpCompare h2 a b
  simp only [Equal, Compare, beq_iff_eq]
  rw [e1, e2]

/-- C4: `CompareFunc a b c` is the negation of `CompareFunc b a` with the
argument-flipping, sign-flipping comparator. -/
theorem compareFunc_antisym {α : Type} (a : List α) (c : α → α → Int) :
    ∀ b : List α,
      CompareFunc a b c = -(CompareFunc b a (fun x y => -(c y x))) := by
  induction a with
  | nil => intro b; cases b <;> simp [CompareFunc]
  | cons x xs ih =>
    intro b
    cases b with
    | nil => simp [CompareFunc]
    | cons y ys =>
      by_cases h : c x y = 0
      · simp [CompareFunc, h, ih ys]
      · simp [CompareFunc, h]

/-- C5 (code_bug evaluation): `IsSortedKV` reports the single-pair sequence
`[(-1, 5)]` unsorted, because the first pair is compared per-field against
the phantom zero pair, while the spec's adjacent-step check reports any
single-pair sequence sorted. -/
theorem isSortedKV_singleton_bug :
    IsSortedKV [(-1, 5)] = false ∧ pairwiseSortedKV [(-1, 5)] = true := by
  decide

/-- C6 (code_bug evaluation): `CompactKV` drops the first pair of
`[(0,0), (1,1)]` because it equals the zero-initialised `prev`, whereas the
first element of each maximal run (the whole input here, two runs) must be
yielded. -/
theorem compactKV_drops_leading_zero_pair :
    CompactKV [(0, 0), (1, 1)] = [(1, 1)] ∧
    compactSpec [((0 : Int), (0 : Int)), (1, 1)] = [(0, 0), (1, 1)] := by
  decide

/-- C7: `Coalesce` returns the first element different from zero with
`true`, and `(0, false)` when the sequence is empty or all-zero. -/
theorem coalesce_first_nonzero (l : List Int) :
    Coalesce l = match l.find? (· != 0) with
      | some x => (x, true)
      | none => (0, false) := by
  induction l with
  | nil => rfl
  | cons t rest ih =>
    by_cases h : t = 0
    · subst h
      simpa [Coalesce, List.find?] using ih
    · have hb : (t != 0) = true := by simpa using h
      simp [Coalesce, List.find?, h, hb]

/-! ## Chunk lemmas -/

/-- Concatenating the output of the `Chunk` loop restores the accumulator
followed by the remaining input, provided the accumulator is not yet full. -/
theorem chunkAux_flatten {α : Type} (n : Int) (l : List α) :
    ∀ acc : List α, (acc.length : Int) < n →
      (chunkAux n l acc).flatten = acc ++ l := by
  induction l with
  | nil =>
    intro acc _
    by_cases ha : acc.length > 0 <;> simp [chunkAux, ha]
    simpa using List.eq_nil_of_length_eq_zero (by omega)
  | cons t rest ih =>
    intro acc h
    by_cases hfull : (acc.length : Int) + 1 = n
    · have h0 : (([] : List α).length : Int) < n := by simp; omega
      simp [chunkAux, hfull, ih [] h0]
    · have hlt : (((acc ++ [t]).length : Nat) : Int) < n := by
        simp; omega
      simp [chunkAux, hfull, ih (acc ++ [t]) hlt]

/-- Every chunk the loop emits has between 1 and `n` elements, provided the
accumulator is not yet full. -/
theorem chunkAux_mem_length {α : Type} (n : Int) (l : List α) :
    ∀ acc : List α, (acc.length : Int) < n →
      ∀ c ∈ chunkAux n l acc, 1 ≤ c.length ∧ (c.length : Int) ≤ n := by
  induction l with
  | nil =>
    intro acc h c hc
    by_cases ha : acc.length > 0 <;> simp [chunkAux, ha] at hc
    subst hc
    exact ⟨ha, le_of_lt h⟩
  | cons t rest ih =>
    intro acc h c hc
    by_cases hfull : ((acc ++ [t]).length : Int) = n
    · simp only [chunkAux, hfull, if_pos, List.mem_cons] at hc
      rcases hc with hc | hc
      · subst hc
        constructor
        · simp
        · exact le_of_eq hfull
      · have h0 : (([] : List α).length : Int) < n := by
          simp at hfull ⊢; omega
        exact ih [] h0 c hc
    · have hlt : (((acc ++ [t]).length : Nat) : Int) < n := by
        simp at hfull h ⊢; omega
      simp only [chunkAux, hfull, if_neg, not_false_iff] at hc
      exact ih (acc ++ [t]) hlt c hc

/-- Every chunk the loop emits other than the last one is full, provided the
accumulator is not yet full. -/
theorem chunkAux_dropLast_length {α : Type} (n : Int) (l : List α) :
    ∀ acc : List α, (acc.length : Int) < n →
      ∀ c ∈ (chunkAux n l acc).dropLast, (c.length : Int) = n := by
  induction l with
  | nil =>
    intro acc _ c hc
    by_cases ha : acc.length > 0 <;> simp [chunkAux, ha] at hc
  | cons t rest ih =>
    intro acc h c hc
    by_cases hfull : ((acc ++ [t]).length : Int) = n
    · have h0 : (([] : List α).length : Int) < n := by
        simp at hfull ⊢; omega
      simp only [chunkAux, hfull, if_pos] at hc
      rcases hrest : chunkAux n rest [] with _ | ⟨a, as⟩
      · simp [hrest] at hc
      · rw [hrest, List.dropLast_cons₂, List.mem_cons] at hc
        rcases hc with hc | hc
        · subst hc; exact hfull
        · exact ih [] h0 c (hrest ▸ hc)
    · have hlt : (((acc ++ [t]).length : Nat) : Int) < n := by
        simp at hfull h ⊢; omega
      simp only [chunkAux, hfull, if_neg, not_false_iff] at hc
      exact ih (acc ++ [t]) hlt c hc

/-! ## Drop lemmas -/

/-- The counter captured by `DropKV` ends a full iteration advanced by the
length of the input. -/
theorem dropKVStep_snd {α : Type} (n : Int) (l : List α) :
    ∀ i : Int, (dropKVStep n l i).2 = i + l.length := by
  induction l with
  | nil => intro i; simp [dropKVStep]
  | cons x xs ih =>
    intro i
    by_cases h : i + 1 < n <;> simp [dropKVStep, h, ih (i + 1)] <;> omega

/-- A full iteration of the `DropKV` loop from counter `i` yields the input
with its first `n - 1 - i` elements removed. -/
theorem dropKVStep_fst {α : Type} (n : Int) (l : List α) :
    ∀ i : Int, (dropKVStep n l i).1 = l.drop (n - 1 - i).toNat := by
  induction l with
  | nil => intro i; simp [dropKVStep]
  | cons x xs ih =>
    intro i
    by_cases h : i + 1 < n
    · have h1 : (n - 1 - i).toNat = (n - 1 - (i + 1)).toNat + 1 := by omega
      simp [dropKVStep, h, ih (i + 1), h1]
    · have h1 : (n - 1 - i).toNat = 0 := by omega
      have h2 : (n - 1 - (i + 1)).toNat = 0 := by omega
      simp [dropKVStep, h, ih (i + 1), h1, h2]

/-! ## Remaining claims -/

/-- C8: for chunk size `n ≥ 1`, concatenating the chunks of `Chunk l n` in
order reproduces `l`; every chunk except possibly the last has exactly `n`
elements, and every chunk (the last included) has between 1 and `n`. -/
theorem chunk_reconstruction (l : List Int) (n : Int) (hn : 1 ≤ n) :
    (Chunk l n).flatten = l ∧
    (∀ c ∈ (Chunk l n).dropLast, (c.length : Int) = n) ∧
    (∀ c ∈ Chunk l n, 1 ≤ c.length ∧ (c.length : Int) ≤ n) := by
  have h0 : (([] : List Int).length : Int) < n := by simp; omega
  exact ⟨by simpa using chunkAux_flatten n l [] h0,
    chunkAux_dropLast_length n l [] h0,
    chunkAux_mem_length n l [] h0⟩

/-- Witness for C8 at `l = [1,2,3]`, `n = 2`. -/
theorem chunk_reconstruction_witness :
    (1 : Int) ≤ 2 ∧
    ((Chunk ([1, 2, 3] : List Int) 2).flatten = [1, 2, 3] ∧
      (∀ c ∈ (Chunk ([1, 2, 3] : List Int) 2).dropLast, (c.length : Int) = 2) ∧
      (∀ c ∈ Chunk ([1, 2, 3] : List Int) 2,
        1 ≤ c.length ∧ (c.length : Int) ≤ 2)) :=
  ⟨by norm_num, chunk_reconstruction [1, 2, 3] 2 (by norm_num)⟩

/-- C10: for chunk size `n ≤ 0`, `Chunk` yields a single chunk holding the
whole input when it is non-empty, no chunk when it is empty, and never an
empty chunk: the accumulator's length, at least 1 after an append, never
equals the non-positive `size`, so elements only leave through the final
non-empty flush. -/
theorem chunk_nonpos_single (l : List Int) (n : Int) (hn : n ≤ 0) :
    Chunk l n = (if l.isEmpty then [] else [l]) ∧
    ∀ c ∈ Chunk l n, c ≠ [] := by
  have key : ∀ (rest acc : List Int),
      chunkAux n rest acc = if (acc ++ rest).isEmpty then [] else [acc ++ rest] := by
    intro rest
    induction rest with
    | nil =>
      intro acc
      rcases acc with _ | ⟨a, as⟩ <;> simp [chunkAux]
    | cons t r ih =>
      intro acc
      have hne : ((acc ++ [t]).length : Int) ≠ n := by
        have : 0 < (acc ++ [t]).length := by simp
        omega
      simp only [chunkAux, hne, if_neg, not_false_iff, ih (acc ++ [t])]
      simp
  constructor
  · simpa using key l []
  · intro c hc
    have := key l []
    simp only [Chunk] at hc
    rw [this] at hc
    rcases l with _ | ⟨x, xs⟩
    · simp at hc
    · simp at hc
      subst hc
      simp

/-- Witness for C10 at `l = [1,2]`, `n = 0` (and the empty list via the
`if`). -/
theorem chunk_nonpos_single_witness :
    (0 : Int) ≤ 0 ∧
    (Chunk ([1, 2] : List Int) 0 =
        (if ([1, 2] : List Int).isEmpty then [] else [[1, 2]]) ∧
      ∀ c ∈ Chunk ([1, 2] : List Int) 0, c ≠ []) :=
  ⟨le_refl 0, chunk_nonpos_single [1, 2] 0 (le_refl 0)⟩

/-- C9: the sequence returned by `DropKV` owns a counter shared across
iterations: for `1 ≤ n ≤ L`, the first full iteration (counter starting at
`-1`) yields the last `L - n` pairs, while a second full iteration, resuming
from the counter the first one left, yields all `L` pairs — the two runs
differ; `Drop`, whose counter is rebuilt from scratch inside each iteration,
yields the last `L - n` pairs on every run. -/
theorem dropKV_stateful (l : List (Int × Int)) (n : Int)
    (h1 : 1 ≤ n) (h2 : n ≤ (l.length : Int)) :
    (dropKVStep n l (-1)).1 = l.drop n.toNat ∧
    (dropKVStep n l ((dropKVStep n l (-1)).2)).1 = l ∧
    (dropKVStep n l (-1)).1 ≠ (dropKVStep n l ((dropKVStep n l (-1)).2)).1 ∧
    dropRun n l = l.drop n.toNat := by
  have hfirst : (dropKVStep n l (-1)).1 = l.drop n.toNat := by
    have := dropKVStep_fst n l (-1)
    have harg : (n - 1 - (-1)).toNat = n.toNat := by omega
    rw [this, harg]
  have hsnd : (dropKVStep n l (-1)).2 = -1 + l.length := dropKVStep_snd n l (-1)
  have hsecond : (dropKVStep n l ((dropKVStep n l (-1)).2)).1 = l := by
    rw [hsnd, dropKVStep_fst n l]
    have harg : (n - 1 - (-1 + (l.length : Int))).toNat = 0 := by omega
    rw [harg, List.drop_zero]
  refine ⟨hfirst, hsecond, ?_, hfirst⟩
  rw [hfirst, hsecond]
  intro e
  have hlen := congrArg List.length e
  rw [List.length_drop] at hlen
  omega

/-- Witness for C9 at `l = [(1,1),(2,2),(3,3)]`, `n = 1`. -/
theorem dropKV_stateful_witness :
    ((1 : Int) ≤ 1 ∧ (1 : Int) ≤ (([((1 : Int), (1 : Int)), (2, 2), (3, 3)].length : Nat) : Int)) ∧
    ((dropKVStep 1 [((1 : Int), (1 : Int)), (2, 2), (3, 3)] (-1)).1 =
        [((1 : Int), (1 : Int)), (2, 2), (3, 3)].drop (1 : Int).toNat ∧
      (dropKVStep 1 [((1 : Int), (1 : Int)), (2, 2), (3, 3)]
          ((dropKVStep 1 [((1 : Int), (1 : Int)), (2, 2), (3, 3)] (-1)).2)).1 =
        [((1 : Int), (1 : Int)), (2, 2), (3, 3)] ∧
      (dropKVStep 1 [((1 : Int), (1 : Int)), (2, 2), (3, 3)] (-1)).1 ≠
        (dropKVStep 1 [((1 : Int), (1 : Int)), (2, 2), (3, 3)]
          ((dropKVStep 1 [((1 : Int), (1 : Int)), (2, 2), (3, 3)] (-1)).2)).1 ∧
      dropRun 1 [((1 : Int), (1 : Int)), (2, 2), (3, 3)] =
        [((1 : Int), (1 : Int)), (2, 2), (3, 3)].drop (1 : Int).toNat) :=
  ⟨⟨by norm_num, by norm_num⟩,
    dropKV_stateful [((1 : Int), (1 : Int)), (2, 2), (3, 3)] 1 (by norm_num)
      (by norm_num)⟩

end Seq
